import Mathlib

/-!
Verification of the analytical core of `app.py` (repository AtLarge1989/10dollars).

The file shallowly embeds the pure core of the program:
  - `format_ticker` : ticker-symbol normalization (app.py lines 17-35);
  - `rsi_wilder` : Wilder-smoothed RSI over a close series (lines 44-51);
  - `calculate_logic` : the analysis orchestrator (lines 53-90), including the
    percentile rank, true range / ATR, signal classifier and zone calculator.

Modelling conventions:
  - Python floats are modelled as `ℚ`; a pandas value that can be NaN is an
    `Option ℚ` with `none` standing for NaN (every arithmetic helper below
    propagates `none` exactly the way IEEE NaN propagates through the
    corresponding pandas/NumPy operation, as noted at each definition).
  - pandas Series become `List ℚ` or `List (Option ℚ)`.
  - Python strings are Lean `String`s; the Python `str` methods used by the
    source (`strip`, `upper`, `endswith`, `split`, `replace`, `zfill`,
    `isdigit`, `startswith`) are modelled character-by-character on `s.toList`
    (ASCII-faithful, which covers every input class the program distinguishes).
  - A Python runtime exception is an `Except PyExn` result.
-/

set_option autoImplicit false

/-! ### Python string primitives used by `format_ticker` -/

/-- Python `s.strip()`: remove leading and trailing whitespace. -/
def pyStrip (s : String) : String :=
  String.mk (((s.toList.dropWhile Char.isWhitespace).reverse.dropWhile
    Char.isWhitespace).reverse)

/-- Python `s.upper()` (ASCII letters, which is all the program distinguishes). -/
def pyUpper (s : String) : String :=
  String.mk (s.toList.map Char.toUpper)

/-- Python `s.endswith(suf)`. -/
def pyEndsWith (s suf : String) : Bool :=
  suf.toList.isSuffixOf s.toList

/-- Python `s.startswith(pre)`. -/
def pyStartsWith (s pre : String) : Bool :=
  pre.toList.isPrefixOf s.toList

/-- Python `sub in s` for the one-character substring `"."` used at line 28. -/
def pyHasDot (s : String) : Bool :=
  s.toList.contains '.'

/-- Python `s.split(".")`. -/
def pySplitDot (s : String) : List String :=
  (s.toList.splitOn '.').map String.mk

/-- Python `s.replace(".", "-")` (single-character pattern, so a char map). -/
def pyReplaceDotDash (s : String) : String :=
  String.mk (s.toList.map (fun c => if c = '.' then '-' else c))

/-- Python `s.isdigit()` (ASCII digits; `"".isdigit()` is `False`). -/
def pyIsdigit (s : String) : Bool :=
  !s.toList.isEmpty && s.toList.all Char.isDigit

/-- Python `s.zfill(w)`: left-pad with `'0'` to width `w`; a leading sign
stays in front of the padding; a string already at least `w` long is
returned unchanged. -/
def zfill (w : Nat) (s : String) : String :=
  if w ≤ s.toList.length then s
  else
    let pad := String.mk (List.replicate (w - s.toList.length) '0')
    if pyStartsWith s "-" || pyStartsWith s "+" then
      String.mk (s.toList.take 1) ++ pad ++ String.mk (s.toList.drop 1)
    else pad ++ s

/-! ### `format_ticker` (app.py lines 17-35) -/

/-- The branch chain of `format_ticker` applied after the source rebinds
`s = s.strip().upper()` (line 19): Hong-Kong suffix (lines 22-24), dotted
non-mainland symbols (lines 28-29), 6-digit A-share codes (lines 32-33),
otherwise unchanged (line 35).  In the Hong-Kong branch the source indexes
`parts[1]`, which exists because `s.endswith(".HK")` guarantees at least one
dot; `getD` with an unreachable default models that total access. -/
def fmtBody (t : String) : String :=
  if pyEndsWith t ".HK" then
    zfill 5 ((pySplitDot t).headD "") ++ "." ++ (pySplitDot t).getD 1 ""
  else if pyHasDot t && !(pyEndsWith t ".SS" || pyEndsWith t ".SZ") then
    pyReplaceDotDash t
  else if pyIsdigit t && t.toList.length = 6 then
    if pyStartsWith t "6" || pyStartsWith t "9" then t ++ ".SS" else t ++ ".SZ"
  else t

/-- `format_ticker` (app.py lines 17-35).  Python `if not s:` is true exactly
for the empty string (a whitespace-only string is truthy), so only `""`
takes the `"AAPL"` default branch. -/
def format_ticker (s : String) : String :=
  if s = "" then "AAPL" else fmtBody (pyUpper (pyStrip s))

/-! ### NaN-aware numeric helpers (`none` is NaN) -/

/-- Python `max(x, y)` where `x` may be NaN: CPython keeps the first argument
unless the second compares strictly greater, and every comparison with NaN is
false, so `max(NaN, y) = NaN` while `max(x, NaN) = x`. -/
def pyMax (x y : Option ℚ) : Option ℚ :=
  match x, y with
  | some a, some b => some (max a b)
  | none, _ => none
  | some a, none => some a

/-- Elementwise pandas division `a / b` of two aligned series; NaN on either
side propagates.  In this file the divisor series never holds an exact `0`
(zeros are replaced by NaN first, as in app.py line 50), so plain `ℚ`
division is exact on every reachable input. -/
def seriesDiv (a b : List (Option ℚ)) : List (Option ℚ) :=
  List.zipWith
    (fun x y =>
      match x, y with
      | some g, some l => some (g / l)
      | _, _ => none) a b

/-- pandas `Series.tail(n)` (also used for trailing windows of plain lists). -/
def pdTail {α : Type} (n : Nat) (xs : List α) : List α :=
  xs.drop (xs.length - n)

/-! ### `rsi_wilder` (app.py lines 44-51) -/

/-- pandas `close.diff()` (line 45): first element NaN, then successive
differences `close[i] - close[i-1]`. -/
def deltaOf : List ℚ → List (Option ℚ)
  | [] => []
  | c :: cs => none :: List.zipWith (fun prev cur => some (cur - prev)) (c :: cs) cs

/-- `delta.clip(lower=0)` (line 46): gains. -/
def gainOf (delta : List (Option ℚ)) : List (Option ℚ) :=
  delta.map (Option.map (fun d => max d 0))

/-- `-delta.clip(upper=0)` (line 47): losses (non-negative). -/
def lossOf (delta : List (Option ℚ)) : List (Option ℚ) :=
  delta.map (Option.map (fun d => max (-d) 0))

/-- `Series.ewm(alpha=α, adjust=False).mean()` with running state `st`
(`none` before the first observation).  The series it is applied to in this
file (`gainOf`/`lossOf` of a `diff`) is missing only at its head, where the
output is NaN and the state is untouched; the first observation seeds the
mean and each later observation `x` updates it to `(1-α)*m + α*x`. -/
def ewmAux (α : ℚ) (st : Option ℚ) : List (Option ℚ) → List (Option ℚ)
  | [] => []
  | none :: xs => none :: ewmAux α st xs
  | some x :: xs =>
    match st with
    | none => some x :: ewmAux α (some x) xs
    | some m =>
      some ((1 - α) * m + α * x) :: ewmAux α (some ((1 - α) * m + α * x)) xs

/-- `ewm(alpha=α, adjust=False).mean()` from an empty state. -/
def ewm_mean (α : ℚ) (xs : List (Option ℚ)) : List (Option ℚ) :=
  ewmAux α none xs

/-- `avg_loss.replace(0, np.nan)` (line 50): exact zeros become NaN. -/
def replaceZeroWithNaN (xs : List (Option ℚ)) : List (Option ℚ) :=
  xs.map (fun o =>
    match o with
    | some v => if v = 0 then none else some v
    | none => none)

/-- `gain.ewm(alpha=1/period, adjust=False).mean()` (line 48). -/
def avg_gain_of (close : List ℚ) (period : ℚ) : List (Option ℚ) :=
  ewm_mean (1 / period) (gainOf (deltaOf close))

/-- `loss.ewm(alpha=1/period, adjust=False).mean()` (line 49). -/
def avg_loss_of (close : List ℚ) (period : ℚ) : List (Option ℚ) :=
  ewm_mean (1 / period) (lossOf (deltaOf close))

/-- `rsi_wilder` (lines 44-51): `rs = avg_gain / avg_loss.replace(0, nan)`;
`rsi = 100 - 100/(1+rs)`; NaN propagates, so the output is NaN at index 0
and wherever the smoothed loss is exactly 0. -/
def rsi_wilder (close : List ℚ) (period : ℚ := 14) : List (Option ℚ) :=
  (seriesDiv (avg_gain_of close period)
      (replaceZeroWithNaN (avg_loss_of close period))).map
    (Option.map (fun r => 100 - 100 / (1 + r)))

/-! ### Percentile rank (app.py line 59) -/

/-- `xs.rank(pct=True).iloc[-1]`: the pandas percentile rank of the last
element with the default `method='average'` tie rule — the mean ordinal
position of the tie group, `count(< last) + (count(= last) + 1)/2`, divided
by the series length; `none` for an empty series (`iloc[-1]` unreachable on
empty input here). -/
def rank_pct_last (xs : List ℚ) : Option ℚ :=
  match xs.getLast? with
  | none => none
  | some a =>
    some ((((xs.countP (fun y => decide (y < a)) : ℚ)) +
        (((xs.countP (fun y => decide (y = a)) : ℚ)) + 1) / 2) /
      (xs.length : ℚ))

/-- `close.tail(756).rank(pct=True).iloc[-1]` (line 59). -/
def pr_3y_of (close : List ℚ) : Option ℚ :=
  rank_pct_last (pdTail 756 close)

/-- Whether the last element of `xs` is untied in `xs` (its value occurs
exactly once). -/
def lastUntied (xs : List ℚ) : Bool :=
  match xs.getLast? with
  | none => false
  | some a => xs.countP (fun y => decide (y = a)) = 1

/-! ### Price bars, true range and ATR (app.py lines 70-71) -/

/-- One row of the price table `df`.  `High` and `Low` are the positive
decimals of the spec data model; `Close` is optional because the source
explicitly cleans it with `dropna()` (line 54). -/
structure Bar where
  high : ℚ
  low : ℚ
  close : Option ℚ
deriving DecidableEq

/-- `df['Close'].dropna()` (line 54). -/
def dropnaClose (df : List Bar) : List ℚ :=
  df.filterMap (fun b => b.close)

/-- The true-range series of line 70:
`pd.concat([High-Low, |High - close.shift(1)|, |Low - close.shift(1)|],
axis=1).max(axis=1)`, where `close` is the `dropna`-ed close series.  Index
alignment puts the previous *valid* close at a row whose own close is valid,
and NaN elsewhere; the rowwise `max` skips NaN, leaving `High - Low` when no
previous close is available.  `lastValid` carries the most recent valid close
seen so far. -/
def trGo (lastValid : Option ℚ) : List Bar → List ℚ
  | [] => []
  | b :: bs =>
    let sh : Option ℚ :=
      match b.close with
      | some _ => lastValid
      | none => none
    let t : ℚ :=
      match sh with
      | none => b.high - b.low
      | some pc => max (b.high - b.low) (max |b.high - pc| |b.low - pc|)
    t ::
      trGo
        (match b.close with
        | some c => some c
        | none => lastValid) bs

/-- The full true-range series `tr` of line 70 (one value per row of `df`). -/
def trList (df : List Bar) : List ℚ :=
  trGo none df

/-- `tr.rolling(14).mean().iloc[-1]` (line 71): with the pandas default
`min_periods = window`, the last rolling value is the mean of the final 14
true ranges when at least 14 rows exist and NaN otherwise. -/
def atr14 (df : List Bar) : Option ℚ :=
  if 14 ≤ (trList df).length then some ((pdTail 14 (trList df)).sum / 14)
  else none

/-! ### Signal classifier (app.py lines 61-68) -/

/-- The decision chain of lines 65-68 on
`(a, b, c) = (cond_A, cond_B, cond_C)`; each outcome is the source's fixed
`(label, marker, rationale)` triple.  Labels: 加仓 = Add, 建仓 = Build,
试探 = Probe, 观察 = Watch. -/
def classify (a b c : Bool) : String × String × String :=
  if a && b && c then ("加仓", "🔵", "确认反转，极高性价比")
  else if a && b then ("建仓", "🟢", "进入价值区，等待拐头")
  else if a || b then ("试探", "🟡", "满足单一底部特征")
  else ("观察", "⚪", "暂无明显底部信号")

/-! ### Zone calculator (app.py lines 72-84) -/

/-- `width = max(1.8 * atr, last * 0.08)` (line 72), with Python `max` NaN
semantics: NaN `atr` makes the width NaN. -/
def width_of (last : ℚ) (atr : Option ℚ) : Option ℚ :=
  pyMax (atr.map (fun a => 1.8 * a)) (some (last * 0.08))

/-- `center = last * 0.92` (line 73). -/
def center_of (last : ℚ) : ℚ :=
  last * 0.92

/-- The `zones` dict of lines 75-79; each bound is NaN when the width is. -/
structure Zones where
  conservative : Option ℚ × Option ℚ
  neutral : Option ℚ × Option ℚ
  aggressive : Option ℚ × Option ℚ
deriving DecidableEq

def zones_of (last : ℚ) (atr : Option ℚ) : Zones :=
  { conservative :=
      ((width_of last atr).map (fun w => center_of last + 0.3 * w),
        (width_of last atr).map (fun w => center_of last + 0.8 * w))
    neutral :=
      ((width_of last atr).map (fun w => center_of last - 0.2 * w),
        (width_of last atr).map (fun w => center_of last + 0.2 * w))
    aggressive :=
      ((width_of last atr).map (fun w => center_of last - 0.8 * w),
        (width_of last atr).map (fun w => center_of last - 0.3 * w)) }

/-- The `adds` dict of lines 81-84: first add-on is the neutral low, the
pullback add-on is the midpoint of the aggressive band. -/
structure Adds where
  first : Option ℚ
  pullback : Option ℚ
deriving DecidableEq

def adds_of (z : Zones) : Adds :=
  { first := z.neutral.1
    pullback :=
      match z.aggressive.1, z.aggressive.2 with
      | some a, some b => some ((a + b) / 2)
      | _, _ => none }

/-! ### The orchestrator `calculate_logic` (app.py lines 53-90) and the UI
branch that invokes it (lines 112-169) -/

/-- The metadata record `tk.info` as the program reads it (UI lines 122,
128-129): every field optional.  `calculate_logic` receives it as its second
argument and never reads it. -/
structure Info where
  shortName : Option String
  longName : Option String
  trailingPE : Option ℚ
  priceToSales : Option ℚ
deriving DecidableEq

/-- An `Info` with every field absent. -/
def infoNone : Info :=
  { shortName := none, longName := none, trailingPE := none,
    priceToSales := none }

/-- The Python exceptions relevant to the analysis entry point.
`indexError` is what pandas `iloc` raises on an empty series; the spec's
`InsufficientDataError` is included so that statements about it can be
written, but no code path of the source ever produces it (the source defines
no such class). -/
inductive PyExn where
  | indexError
  | insufficientDataError
deriving DecidableEq

/-- Python `x > y` on floats that may be NaN: false whenever a side is NaN. -/
def optLt (x y : Option ℚ) : Bool :=
  match x, y with
  | some a, some b => decide (a < b)
  | _, _ => false

/-- The `metrics` sub-record of line 88. -/
structure Metrics where
  rsi : Option ℚ
  pr_3y : Option ℚ
  atr : Option ℚ
deriving DecidableEq

/-- The result record of lines 86-90. -/
structure AnalysisResult where
  last : ℚ
  sig : String × String × String
  zones : Zones
  adds : Adds
  metrics : Metrics
  cond : Bool × Bool × Bool
deriving DecidableEq

/-- Lines 56-90 of `calculate_logic`, reached only when the cleaned close
series is non-empty (`last` is its final element).  This part of the body is
total: `rsi.iloc[-1]` and the rank's `iloc[-1]` act on non-empty series,
`rsi.iloc[-2]` is guarded by `len(rsi) > 2`, and every NaN (short ATR
window, zero smoothed loss) flows through float arithmetic and comparisons
without raising. -/
def analysisOf (df : List Bar) (close : List ℚ) (last : ℚ) : AnalysisResult :=
  let rsi := rsi_wilder close
  let rsi_last := rsi.getLast?.join
  let rsi_prev := if 2 < rsi.length then (rsi.get? (rsi.length - 2)).join
    else rsi_last
  let pr_3y := pr_3y_of close
  let cond_A :=
    match pr_3y with
    | some p => decide (p < 0.30)
    | none => false
  let cond_B :=
    match rsi_last with
    | some x => decide (x < 35)
    | none => false
  let cond_C := optLt rsi_prev rsi_last
  let atr := atr14 df
  let zones := zones_of last atr
  { last := last
    sig := classify cond_A cond_B cond_C
    zones := zones
    adds := adds_of zones
    metrics := { rsi := rsi_last, pr_3y := pr_3y, atr := atr }
    cond := (cond_A, cond_B, cond_C) }

/-- `calculate_logic(df, info)` (lines 53-90).  Line 54 drops the missing
closes; line 55 (`float(close.iloc[-1])`) raises pandas `IndexError` when
nothing is left.  `info` is never used by the body. -/
def calculate_logic (df : List Bar) (info : Info) :
    Except PyExn AnalysisResult :=
  match (dropnaClose df).getLast? with
  | none => Except.error PyExn.indexError
  | some last => Except.ok (analysisOf df (dropnaClose df) last)

/-- The UI branch of lines 117-169: a non-empty price table is analysed;
an empty one only shows an error message (line 169) and never reaches
`calculate_logic`.  `none` models the no-analysis path. -/
def ui_main (df : List Bar) (info : Info) :
    Option (Except PyExn AnalysisResult) :=
  if df.isEmpty then none else some (calculate_logic df info)

/-! ### Spec-side definitions used for refinement comparisons -/

/-- The decision table exactly as §4.3 of the spec words it: working down
the priority list, `A∧B∧C` is Add (加仓), then `A∧B` is Build (建仓), then
exactly one of `A`,`B` is Probe (试探), else Watch (观察). -/
def spec_classify (a b c : Bool) : String × String × String :=
  match a, b, c with
  | true, true, true => ("加仓", "🔵", "确认反转，极高性价比")
  | true, true, false => ("建仓", "🟢", "进入价值区，等待拐头")
  | true, false, _ => ("试探", "🟡", "满足单一底部特征")
  | false, true, _ => ("试探", "🟡", "满足单一底部特征")
  | false, false, _ => ("观察", "⚪", "暂无明显底部信号")

/-- Percentile rank as the spec words it: the fraction of window values
that are ≤ the last value, ties counted inclusively. -/
def spec_percentileRank (xs : List ℚ) : Option ℚ :=
  match xs.getLast? with
  | none => none
  | some a => some ((xs.countP (fun y => decide (y ≤ a)) : ℚ) / (xs.length : ℚ))

/-- ATR as the spec words it: the simple average of the true ranges over the
trailing `min(14, available)` bars — "if fewer than `period` bars exist,
average over however many are available". -/
def spec_bestEffortATR (df : List Bar) : Option ℚ :=
  match trList df with
  | [] => none
  | _ =>
    some ((pdTail 14 (trList df)).sum / ((pdTail 14 (trList df)).length : ℚ))

/-! ## Claim theorems -/

/-- C1.  The signal classifier is a total function of the three condition
booleans: every one of the 8 combinations yields, by first-match priority,
exactly the table of §4.3 (Add = 加仓 on A∧B∧C, Build = 建仓 on A∧B with C
false, Probe = 试探 on exactly one of A,B, Watch = 观察 on neither), each
with its fixed marker and rationale. -/
theorem classify_decision_table :
    ∀ a b c : Bool,
      classify a b c = spec_classify a b c ∧
        (classify a b c = ("加仓", "🔵", "确认反转，极高性价比") ∨
          classify a b c = ("建仓", "🟢", "进入价值区，等待拐头") ∨
          classify a b c = ("试探", "🟡", "满足单一底部特征") ∨
          classify a b c = ("观察", "⚪", "暂无明显底部信号")) := by
  decide

/-- C9.  The metadata/info argument never influences the analysis: for every
price table, any two values of `info` give the identical result, and in
particular the all-fields-absent metadata record analyses without failure
exactly as any other. -/
theorem calculate_logic_info_independent :
    ∀ (df : List Bar) (i j : Info),
      calculate_logic df i = calculate_logic df j :=
  fun _ _ _ => rfl

/-- C3 counterexample.  The claim says every whitespace-only input maps to
"AAPL"; a single space is whitespace-only yet maps to the empty string
(Python `if not s:` is false for `" "`). -/
theorem format_ticker_whitespace_cex :
    format_ticker " " = "" ∧ ("" : String) ≠ "AAPL" := by
  constructor
  · decide
  · decide

/-- C3 amended.  Only the genuinely empty input string returns the default
symbol "AAPL"; a non-empty whitespace-only input strips to the empty string
and is returned as `""` unchanged. -/
theorem format_ticker_blank_default :
    format_ticker "" = "AAPL" ∧
      ∀ s : String, s ≠ "" → pyStrip s = "" → format_ticker s = "" := by
  refine ⟨rfl, fun s hs ht => ?_⟩
  rw [format_ticker, if_neg hs, ht]
  decide

/-- C3 witness: the amended theorem applied at the concrete whitespace-only
input `"  "`. -/
theorem format_ticker_blank_default_w : format_ticker "  " = "" :=
  format_ticker_blank_default.2 "  " (by decide) (by decide)

/-- C10.  For a (non-empty) input whose stripped-and-uppercased form ends in
".HK" and contains more than one dot, `format_ticker` rebuilds the symbol
from only the first two dot-separated segments: the first segment
zero-padded to five characters, joined by "." to the second segment (every
later segment, including the final "HK", is dropped). -/
theorem format_ticker_multidot_hk (s : String) (hs : s ≠ "")
    (hk : pyEndsWith (pyUpper (pyStrip s)) ".HK" = true)
    (hd : 2 < (pySplitDot (pyUpper (pyStrip s))).length) :
    format_ticker s =
      zfill 5 ((pySplitDot (pyUpper (pyStrip s))).headD "") ++ "." ++
        (pySplitDot (pyUpper (pyStrip s))).getD 1 "" := by
  rw [format_ticker, if_neg hs, fmtBody, if_pos hk]

/-- C10 witness: the theorem applied at the concrete input "A.B.HK",
whose result "0000A.B" indeed drops the ".HK" suffix. -/
theorem format_ticker_multidot_hk_w :
    format_ticker "A.B.HK" =
        zfill 5 ((pySplitDot (pyUpper (pyStrip "A.B.HK"))).headD "") ++ "." ++
          (pySplitDot (pyUpper (pyStrip "A.B.HK"))).getD 1 "" ∧
      format_ticker "A.B.HK" = "0000A.B" :=
  ⟨format_ticker_multidot_hk "A.B.HK" (by decide) (by decide) (by decide),
    by decide⟩

/-- C2 counterexample.  On a price table whose rows carry no valid close,
the analysis fails with the pandas `IndexError` from `close.iloc[-1]`, not
with the named `InsufficientDataError` the claim asserts (the source defines
no such error class). -/
theorem calc_logic_empty_close_cex :
    calculate_logic [⟨1, 0, none⟩] infoNone =
        Except.error PyExn.indexError ∧
      PyExn.indexError ≠ PyExn.insufficientDataError := by
  exact ⟨rfl, by decide⟩

/-- C2 amended.  The analysis entry point drops missing close values before
any computation, and whenever the resulting close series is empty it fails
with an (unnamed) `IndexError` from positional indexing rather than a named
`InsufficientDataError`; the fully-empty price table never reaches the
analysis at all — the UI branch shows an error message instead. -/
theorem calc_logic_empty_close_behavior (df : List Bar) (info : Info) :
    (dropnaClose df = [] →
        calculate_logic df info = Except.error PyExn.indexError) ∧
      (df = [] → ui_main df info = none) := by
  constructor
  · intro h
    rw [calculate_logic, h]
    rfl
  · intro h
    subst h
    rfl

/-- C2 witness: the amended theorem applied at a one-row table with a
missing close and at the empty table. -/
theorem calc_logic_empty_close_behavior_w :
    calculate_logic [⟨1, 0, none⟩] infoNone =
        Except.error PyExn.indexError ∧
      ui_main [] infoNone = none :=
  ⟨(calc_logic_empty_close_behavior [⟨1, 0, none⟩] infoNone).1 rfl,
    (calc_logic_empty_close_behavior [] infoNone).2 rfl⟩

/-! ### Shared helper lemmas -/

theorem zipWith_getq {α β γ : Type} (f : α → β → γ) (as : List α)
    (bs : List β) (i : ℕ) :
    (List.zipWith f as bs).get? i =
      match as.get? i, bs.get? i with
      | some a, some b => some (f a b)
      | _, _ => none := by
  induction as generalizing bs i with
  | nil => cases bs <;> cases i <;> rfl
  | cons a as ih =>
    cases bs with
    | nil =>
      cases i with
      | zero => rfl
      | succ n =>
        simp only [List.zipWith_nil_right, List.get?_nil, List.get?_cons_succ]
        cases as.get? n <;> rfl
    | cons b bs =>
      cases i with
      | zero => rfl
      | succ n => exact ih bs n

theorem ewmAux_length (α : ℚ) (st : Option ℚ) (xs : List (Option ℚ)) :
    (ewmAux α st xs).length = xs.length := by
  induction xs generalizing st with
  | nil => rfl
  | cons x xs ih =>
    cases x with
    | none => simp [ewmAux, ih]
    | some v => cases st <;> simp [ewmAux, ih]

theorem avg_gain_length (close : List ℚ) (p : ℚ) :
    (avg_gain_of close p).length = (deltaOf close).length := by
  simp [avg_gain_of, ewm_mean, ewmAux_length, gainOf]

theorem avg_loss_length (close : List ℚ) (p : ℚ) :
    (avg_loss_of close p).length = (deltaOf close).length := by
  simp [avg_loss_of, ewm_mean, ewmAux_length, lossOf]

/-- C4 counterexample.  On the two-point rising series `[1, 2]` the smoothed
loss at index 1 is exactly 0, and the returned RSI value there is NaN
(`none`), not the 100 the claim asserts: line 50 replaces the zero loss with
NaN before dividing, and the NaN then propagates through `100 - 100/(1+rs)`. -/
theorem rsi_zero_loss_cex :
    (avg_loss_of [1, 2] 14).get? 1 = some (some 0) ∧
      (rsi_wilder [1, 2] 14).get? 1 = some none ∧
      (some (none : Option ℚ)) ≠ some (some (100 : ℚ)) := by
  refine ⟨?_, ?_, by simp⟩
  · norm_num [avg_loss_of, ewm_mean, ewmAux, lossOf, deltaOf]
  · norm_num [rsi_wilder, seriesDiv, avg_gain_of, avg_loss_of, ewm_mean,
      ewmAux, gainOf, lossOf, deltaOf, replaceZeroWithNaN]

/-- C4 amended.  At every index where the smoothed average loss is exactly
0, `rsi_wilder` returns NaN (an undefined value, which every downstream
comparison treats as false), not 100 and not an error. -/
theorem rsi_zero_loss_nan (close : List ℚ) (i : ℕ)
    (h : (avg_loss_of close 14).get? i = some (some 0)) :
    (rsi_wilder close 14).get? i = some none := by
  obtain ⟨g, hg⟩ : ∃ g, (avg_gain_of close 14).get? i = some g := by
    cases hg : (avg_gain_of close 14).get? i with
    | none =>
      rw [List.get?_eq_none, avg_gain_length, ← avg_loss_length close 14] at hg
      rw [List.get?_len_le hg] at h
      exact absurd h (by simp)
    | some g => exact ⟨g, rfl⟩
  rw [rsi_wilder, List.get?_map, seriesDiv, zipWith_getq, hg,
    replaceZeroWithNaN, List.get?_map, h]
  cases g <;> rfl

/-- C4 witness: the amended theorem applied at the concrete series `[1, 2]`
and index 1. -/
theorem rsi_zero_loss_nan_w : (rsi_wilder [1, 2] 14).get? 1 = some none :=
  rsi_zero_loss_nan [1, 2] 1
    (by norm_num [avg_loss_of, ewm_mean, ewmAux, lossOf, deltaOf])

theorem mem_zipWith_exists {α β γ : Type} {f : α → β → γ} {c : γ} :
    ∀ {as : List α} {bs : List β}, c ∈ List.zipWith f as bs →
      ∃ a, a ∈ as ∧ ∃ b, b ∈ bs ∧ c = f a b := by
  intro as
  induction as with
  | nil => intro bs h; simp at h
  | cons a as ih =>
    intro bs h
    cases bs with
    | nil => simp at h
    | cons b bs =>
      rcases List.mem_cons.mp h with h | h
      · exact ⟨a, List.mem_cons_self a as, b, List.mem_cons_self b bs, h⟩
      · obtain ⟨x, hx, y, hy, hc⟩ := ih h
        exact ⟨x, List.mem_cons_of_mem a hx, y, List.mem_cons_of_mem b hy, hc⟩

theorem gainOf_mem_nonneg {d : List (Option ℚ)} {o : Option ℚ}
    (ho : o ∈ gainOf d) : ∀ v, o = some v → 0 ≤ v := by
  obtain ⟨x, _, hx⟩ := List.mem_map.mp ho
  intro v hv
  cases x with
  | none => rw [← hx] at hv; exact absurd hv (by simp)
  | some d0 =>
    rw [← hx] at hv
    simp only [Option.map_some', Option.some.injEq] at hv
    rw [← hv]
    exact le_max_right d0 0

theorem lossOf_mem_nonneg {d : List (Option ℚ)} {o : Option ℚ}
    (ho : o ∈ lossOf d) : ∀ v, o = some v → 0 ≤ v := by
  obtain ⟨x, _, hx⟩ := List.mem_map.mp ho
  intro v hv
  cases x with
  | none => rw [← hx] at hv; exact absurd hv (by simp)
  | some d0 =>
    rw [← hx] at hv
    simp only [Option.map_some', Option.some.injEq] at hv
    rw [← hv]
    exact le_max_right (-d0) 0

theorem ewmAux_nonneg (α : ℚ) (hα : 0 ≤ α) (hα1 : α ≤ 1) :
    ∀ (xs : List (Option ℚ)) (st : Option ℚ),
      (∀ m, st = some m → 0 ≤ m) →
      (∀ o ∈ xs, ∀ v, o = some v → 0 ≤ v) →
      ∀ o ∈ ewmAux α st xs, ∀ v, o = some v → 0 ≤ v := by
  intro xs
  induction xs with
  | nil => intro st _ _ o ho; simp [ewmAux] at ho
  | cons x xs ih =>
    intro st hst hxs o ho v hv
    have hxs0 := hxs x (List.mem_cons_self x xs)
    have hxs1 : ∀ o ∈ xs, ∀ v, o = some v → 0 ≤ v :=
      fun o ho => hxs o (List.mem_cons_of_mem x ho)
    cases x with
    | none =>
      rw [show ewmAux α st (none :: xs) = none :: ewmAux α st xs from rfl]
        at ho
      rcases List.mem_cons.mp ho with h | h
      · rw [h] at hv; exact absurd hv (by simp)
      · exact ih st hst hxs1 o h v hv
    | some x0 =>
      have hx0 : 0 ≤ x0 := hxs0 x0 rfl
      cases st with
      | none =>
        rw [show ewmAux α none (some x0 :: xs) =
            some x0 :: ewmAux α (some x0) xs from rfl] at ho
        rcases List.mem_cons.mp ho with h | h
        · rw [h] at hv
          simp only [Option.some.injEq] at hv
          rw [← hv]; exact hx0
        · exact ih (some x0) (fun m hm => by
            simp only [Option.some.injEq] at hm; rw [← hm]; exact hx0)
            hxs1 o h v hv
      | some m =>
        have hm : 0 ≤ m := hst m rfl
        have hnew : 0 ≤ (1 - α) * m + α * x0 :=
          add_nonneg (mul_nonneg (by linarith) hm) (mul_nonneg hα hx0)
        rw [show ewmAux α (some m) (some x0 :: xs) =
            some ((1 - α) * m + α * x0) ::
              ewmAux α (some ((1 - α) * m + α * x0)) xs from rfl] at ho
        rcases List.mem_cons.mp ho with h | h
        · rw [h] at hv
          simp only [Option.some.injEq] at hv
          rw [← hv]; exact hnew
        · exact ih (some ((1 - α) * m + α * x0)) (fun m2 hm2 => by
            simp only [Option.some.injEq] at hm2; rw [← hm2]; exact hnew)
            hxs1 o h v hv

/-- C5.  For every non-degenerate close series (length ≥ 2 — which, for the
cleaned series the caller passes, is exactly the condition that at least one
price change is defined), every defined value of the `rsi_wilder` output lies
in the closed interval [0, 100]: a defined value is `100 - 100/(1+g/l)` for a
smoothed gain `g ≥ 0` and smoothed loss `l > 0`. -/
theorem rsi_range_bounded (close : List ℚ) (h2 : 2 ≤ close.length) :
    (rsi_wilder close).all
      (fun o => o.all (fun v => decide (0 ≤ v) && decide (v ≤ 100))) = true := by
  rw [List.all_eq_true]
  intro o ho
  cases o with
  | none => rfl
  | some v =>
    simp only [Option.all_some, Bool.and_eq_true, decide_eq_true_eq]
    rw [rsi_wilder] at ho
    obtain ⟨r0, hr0mem, hr0⟩ := List.mem_map.mp ho
    cases r0 with
    | none => exact absurd hr0 (by simp)
    | some r =>
      simp only [Option.map_some', Option.some.injEq] at hr0
      rw [seriesDiv] at hr0mem
      obtain ⟨x, hx, y, hy, hc⟩ := mem_zipWith_exists hr0mem
      cases x with
      | none => simp at hc
      | some g =>
        cases y with
        | none => simp at hc
        | some l =>
          simp only [Option.some.injEq] at hc
          obtain ⟨o2, ho2, he⟩ := List.mem_map.mp hy
          have hl : 0 < l := by
            cases o2 with
            | none => exact absurd he (by simp)
            | some lv =>
              have hlv : 0 ≤ lv :=
                ewmAux_nonneg (1 / 14) (by norm_num) (by norm_num)
                  (lossOf (deltaOf close)) none (by simp)
                  (fun o ho => lossOf_mem_nonneg ho) (some lv) ho2 lv rfl
              by_cases h0 : lv = 0
              · rw [h0] at he; exact absurd he (by simp)
              · simp only [h0, if_neg, ite_false, Option.some.injEq] at he
                rw [← he]
                exact lt_of_le_of_ne hlv (Ne.symm h0)
          have hg : 0 ≤ g :=
            ewmAux_nonneg (1 / 14) (by norm_num) (by norm_num)
              (gainOf (deltaOf close)) none (by simp)
              (fun o ho => gainOf_mem_nonneg ho) (some g) hx g rfl
          have hr : 0 ≤ r := by rw [hc]; exact div_nonneg hg (le_of_lt hl)
          have h1r : (1 : ℚ) ≤ 1 + r := by linarith
          have hdivle : 100 / (1 + r) ≤ 100 := div_le_self (by norm_num) h1r
          have hdivpos : 0 ≤ 100 / (1 + r) :=
            div_nonneg (by norm_num) (by linarith)
          rw [← hr0]
          constructor
          · linarith
          · linarith

/-- C5 witness: the theorem applied at the concrete three-point series
`[100, 90, 95]`. -/
theorem rsi_range_bounded_w :
    (rsi_wilder [100, 90, 95]).all
      (fun o => o.all (fun v => decide (0 ≤ v) && decide (v ≤ 100))) = true :=
  rsi_range_bounded [100, 90, 95] (by norm_num)

theorem countP_lt_add_countP_eq_le (xs : List ℚ) (a : ℚ) :
    xs.countP (fun y => decide (y < a)) +
        xs.countP (fun y => decide (y = a)) ≤ xs.length := by
  induction xs with
  | nil => simp
  | cons x t ih =>
    simp only [List.countP_cons, List.length_cons]
    by_cases h1 : x < a
    · have h2 : ¬x = a := fun he => absurd (he ▸ h1) (lt_irrefl a)
      simp [h1, h2]
      omega
    · by_cases h2 : x = a <;> simp [h1, h2] <;> omega

theorem countP_le_eq_split (xs : List ℚ) (a : ℚ) :
    xs.countP (fun y => decide (y ≤ a)) =
      xs.countP (fun y => decide (y < a)) +
        xs.countP (fun y => decide (y = a)) := by
  induction xs with
  | nil => simp
  | cons x t ih =>
    simp only [List.countP_cons]
    by_cases h1 : x < a
    · have h2 : ¬x = a := fun he => absurd (he ▸ h1) (lt_irrefl a)
      have h3 : x ≤ a := le_of_lt h1
      simp [h1, h2, h3]
      omega
    · by_cases h2 : x = a
      · have h3 : x ≤ a := le_of_eq h2
        simp [h1, h2, h3]
        omega
      · have h3 : ¬x ≤ a := fun hle => (lt_or_eq_of_le hle).elim h1 h2
        simp [h1, h2, h3]
        exact ih


theorem rank_pct_last_bounds (xs : List ℚ) (h : xs ≠ []) :
    ∃ p, rank_pct_last xs = some p ∧ 0 ≤ p ∧ p ≤ 1 := by
  have ha : xs.getLast? = some (xs.getLast h) :=
    List.getLast?_eq_getLast_of_ne_nil h
  have hmem : xs.getLast h ∈ xs := List.getLast_mem h
  have hEQ1 : 1 ≤ xs.countP (fun y => decide (y = xs.getLast h)) :=
    List.countP_pos_iff.mpr ⟨xs.getLast h, hmem, by simp⟩
  have hsum := countP_lt_add_countP_eq_le xs (xs.getLast h)
  have hn : (0 : ℚ) < (xs.length : ℚ) := by
    exact_mod_cast List.length_pos.mpr h
  refine ⟨(((xs.countP (fun y => decide (y < xs.getLast h)) : ℚ)) +
      (((xs.countP (fun y => decide (y = xs.getLast h)) : ℚ)) + 1) / 2) /
      (xs.length : ℚ), ?_, ?_, ?_⟩
  · rw [rank_pct_last, ha]
  · apply div_nonneg _ (le_of_lt hn)
    positivity
  · rw [div_le_one hn]
    have h1 : (1 : ℚ) ≤
        ((xs.countP (fun y => decide (y = xs.getLast h)) : ℚ)) := by
      exact_mod_cast hEQ1
    have h2 : ((xs.countP (fun y => decide (y < xs.getLast h)) : ℚ)) +
        ((xs.countP (fun y => decide (y = xs.getLast h)) : ℚ)) ≤
        (xs.length : ℚ) := by
      exact_mod_cast hsum
    linarith

theorem rank_pct_last_of_increasing (xs : List ℚ) (h : xs ≠ [])
    (hp : xs.Pairwise (· < ·)) : rank_pct_last xs = some 1 := by
  obtain ⟨ys, a, rfl⟩ : ∃ ys a, xs = ys ++ [a] := by
    rcases List.eq_nil_or_concat' xs with h0 | ⟨L, b, hLb⟩
    · exact absurd h0 h
    · exact ⟨L, b, hLb⟩
  have ha : (ys ++ [a]).getLast? = some a := List.getLast?_concat ys
  have hall : ∀ y ∈ ys, y < a := by
    intro y hy
    exact (List.pairwise_append.mp hp).2.2 y hy a (List.mem_singleton_self a)
  have hLT : (ys ++ [a]).countP (fun y => decide (y < a)) = ys.length := by
    rw [List.countP_append,
      List.countP_eq_length.mpr (fun y hy => by simpa using hall y hy)]
    simp [List.countP_cons, lt_irrefl]
  have hEQ : (ys ++ [a]).countP (fun y => decide (y = a)) = 1 := by
    rw [List.countP_append,
      List.countP_eq_zero.mpr
        (fun y hy => by simpa using ne_of_lt (hall y hy))]
    simp [List.countP_cons]
  simp only [rank_pct_last, ha, hLT, hEQ, Option.some.injEq,
    List.length_append, List.length_singleton]
  push_cast
  have hpos : (0 : ℚ) < (ys.length : ℚ) + 1 := by positivity
  rw [show ((ys.length : ℚ)) + ((1 : ℚ) + 1) / 2 =
      (ys.length : ℚ) + 1 by ring]
  exact div_self hpos.ne'

theorem rank_pct_last_of_untied (xs : List ℚ) (h : lastUntied xs = true) :
    rank_pct_last xs = spec_percentileRank xs := by
  rw [lastUntied] at h
  cases hgl : xs.getLast? with
  | none => rw [hgl] at h; exact absurd h (by simp)
  | some a =>
    rw [hgl] at h
    have hEQ : xs.countP (fun y => decide (y = a)) = 1 := by
      simpa using h
    simp only [rank_pct_last, spec_percentileRank, hgl, countP_le_eq_split,
      hEQ, Option.some.injEq]
    push_cast
    ring

/-- C6 counterexample.  On the two-point series `[1, 1]` (the last close
tied with the whole window) the code's percentile rank is the pandas
average-tie rank 3/4, while the claimed "fraction of window values ≤ the
last close, ties counted inclusively" is 1: the two semantics differ. -/
theorem percentile_rank_ties_cex :
    pr_3y_of [1, 1] = some (3 / 4) ∧
      spec_percentileRank (pdTail 756 [1, 1]) = some 1 ∧
      ((3 : ℚ) / 4) ≠ 1 := by
  refine ⟨?_, ?_, by norm_num⟩
  · norm_num [pr_3y_of, pdTail, rank_pct_last, List.countP_cons]
  · norm_num [spec_percentileRank, pdTail, List.countP_cons]

/-- C6 amended.  The percentile rank over the trailing 756 closes is the
pandas average-tie rank `(count(< last) + (count(= last)+1)/2) / n`; for
every non-empty series it is defined and lies in [0, 1]; it equals 1.0 for
a strictly increasing series; and it coincides with the claimed inclusive
fraction-≤ exactly on windows whose last value is untied. -/
theorem percentile_rank_props (close : List ℚ) (h : close ≠ []) :
    ((pr_3y_of close).isSome = true ∧
        (pr_3y_of close).all
          (fun p => decide (0 ≤ p) && decide (p ≤ 1)) = true) ∧
      (close.Pairwise (· < ·) → pr_3y_of close = some 1) ∧
      (lastUntied (pdTail 756 close) = true →
        pr_3y_of close = spec_percentileRank (pdTail 756 close)) := by
  have hw : pdTail 756 close ≠ [] := by
    have hlen : 0 < close.length := List.length_pos.mpr h
    rw [pdTail]
    intro h0
    rw [List.drop_eq_nil_iff] at h0
    omega
  refine ⟨?_, ?_, ?_⟩
  · obtain ⟨p, hp, h0, h1⟩ := rank_pct_last_bounds (pdTail 756 close) hw
    rw [pr_3y_of, hp]
    refine ⟨rfl, ?_⟩
    simp only [Option.all_some, Bool.and_eq_true, decide_eq_true_eq]
    exact ⟨h0, h1⟩
  · intro hinc
    rw [pr_3y_of]
    exact rank_pct_last_of_increasing (pdTail 756 close) hw
      (hinc.sublist (List.drop_sublist _ _))
  · intro hu
    rw [pr_3y_of]
    exact rank_pct_last_of_untied (pdTail 756 close) hu

/-- C6 witness: the amended theorem applied at the concrete strictly
increasing two-point series `[1, 2]`. -/
theorem percentile_rank_props_w :
    ((pr_3y_of [1, 2]).isSome = true ∧
        (pr_3y_of [1, 2]).all
          (fun p => decide (0 ≤ p) && decide (p ≤ 1)) = true) ∧
      (([1, 2] : List ℚ).Pairwise (· < ·) → pr_3y_of [1, 2] = some 1) ∧
      (lastUntied (pdTail 756 [1, 2]) = true →
        pr_3y_of [1, 2] = spec_percentileRank (pdTail 756 [1, 2])) :=
  percentile_rank_props [1, 2] (by simp)

theorem trGo_length (df : List Bar) : ∀ st, (trGo st df).length = df.length := by
  induction df with
  | nil => intro st; rfl
  | cons b bs ih =>
    intro st
    simp only [trGo, List.length_cons]
    rw [ih]

/-- C7 counterexample.  A table with a single valid close has ATR NaN
(`tr.rolling(14).mean()` needs a full 14-element window, pandas default
`min_periods = window`), not the claimed best-effort one-bar average,
which would be `high - low = 2` here. -/
theorem atr_short_series_cex :
    atr14 [⟨10, 8, some 9⟩] = none ∧
      spec_bestEffortATR [⟨10, 8, some 9⟩] = some 2 ∧
      (none : Option ℚ) ≠ some 2 := by
  refine ⟨?_, ?_, by simp⟩
  · norm_num [atr14, trList, trGo]
  · norm_num [spec_bestEffortATR, trList, trGo, pdTail]

/-- C7 amended.  `tr.rolling(14).mean()` demands a full window: with at
least 14 bars the last ATR value is the simple average of the trailing 14
true ranges (where it agrees with the spec's best-effort average), but with
fewer than 14 bars it is NaN, not an average over the available bars; the
analysis on any table with at least one valid close still returns a result
(the NaN ATR flows into NaN zones rather than raising). -/
theorem atr_window_behavior (df : List Bar) (info : Info) :
    (14 ≤ df.length → atr14 df = spec_bestEffortATR df) ∧
      (df.length < 14 → atr14 df = none) ∧
      (dropnaClose df ≠ [] →
        (calculate_logic df info).toOption.isSome = true) := by
  have hlen : (trList df).length = df.length := trGo_length df none
  refine ⟨?_, ?_, ?_⟩
  · intro h14
    rw [atr14, spec_bestEffortATR]
    cases htr : trList df with
    | nil =>
      rw [htr] at hlen
      simp only [List.length_nil] at hlen
      omega
    | cons t ts =>
      rw [htr] at hlen
      have h14t : 14 ≤ (t :: ts).length := by omega
      rw [if_pos h14t]
      have hl2 : (pdTail 14 (t :: ts)).length = 14 := by
        rw [pdTail, List.length_drop]
        omega
      rw [hl2]
      norm_num
  · intro hlt
    rw [atr14, if_neg]
    omega
  · intro hne
    cases hgl : (dropnaClose df).getLast? with
    | none => exact absurd (List.getLast?_eq_none_iff.mp hgl) hne
    | some last =>
      rw [calculate_logic, hgl]
      rfl

/-- C7 witness: the amended theorem applied at a concrete 14-bar table
(where the two ATR definitions agree), at a concrete 1-bar table (where the
ATR is NaN), and showing the 1-bar analysis still yields a result. -/
theorem atr_window_behavior_w :
    atr14 (List.replicate 14 ⟨3, 1, some 2⟩) =
        spec_bestEffortATR (List.replicate 14 ⟨3, 1, some 2⟩) ∧
      atr14 [⟨10, 8, some 9⟩] = none ∧
      (calculate_logic [⟨10, 8, some 9⟩] infoNone).toOption.isSome = true := by
  refine ⟨?_, ?_, ?_⟩
  · exact (atr_window_behavior (List.replicate 14 ⟨3, 1, some 2⟩)
      infoNone).1 (by simp)
  · exact (atr_window_behavior [⟨10, 8, some 9⟩] infoNone).2.1 (by simp)
  · exact (atr_window_behavior [⟨10, 8, some 9⟩] infoNone).2.2
      (by simp [dropnaClose])

/-- C8.  For every positive last price and non-negative ATR the zone
calculator produces `width = max(1.8*atr, 0.08*lastPrice)` — never below 8%
of the last price — a center of `0.92*lastPrice`, and strictly ordered band
lows `conservative.low > neutral.low > aggressive.low`. -/
theorem zones_order_and_width (last a : ℚ) (h1 : 0 < last) (h2 : 0 ≤ a) :
    width_of last (some a) = some (max (1.8 * a) (last * 0.08)) ∧
      last * 0.08 ≤ max (1.8 * a) (last * 0.08) ∧
      center_of last = last * 0.92 ∧
      (zones_of last (some a)).conservative.1 =
        some (center_of last + 0.3 * max (1.8 * a) (last * 0.08)) ∧
      (zones_of last (some a)).neutral.1 =
        some (center_of last - 0.2 * max (1.8 * a) (last * 0.08)) ∧
      (zones_of last (some a)).aggressive.1 =
        some (center_of last - 0.8 * max (1.8 * a) (last * 0.08)) ∧
      optLt (zones_of last (some a)).aggressive.1
          (zones_of last (some a)).neutral.1 = true ∧
      optLt (zones_of last (some a)).neutral.1
          (zones_of last (some a)).conservative.1 = true := by
  have hw : last * 0.08 ≤ max (1.8 * a) (last * 0.08) := le_max_right _ _
  have hwpos : 0 < max (1.8 * a) (last * 0.08) :=
    lt_of_lt_of_le (mul_pos h1 (by norm_num)) hw
  refine ⟨rfl, hw, rfl, rfl, rfl, rfl, ?_, ?_⟩
  · simp only [zones_of, width_of, pyMax, Option.map_some', optLt,
      decide_eq_true_eq]
    linarith
  · simp only [zones_of, width_of, pyMax, Option.map_some', optLt,
      decide_eq_true_eq]
    linarith

/-- C8 witness: the theorem applied at the concrete pair
`lastPrice = 100`, `atr = 1`. -/
theorem zones_order_and_width_w :
    width_of 100 (some 1) = some (max (1.8 * 1) (100 * 0.08)) ∧
      (100 : ℚ) * 0.08 ≤ max (1.8 * 1) (100 * 0.08) ∧
      center_of 100 = 100 * 0.92 ∧
      (zones_of 100 (some 1)).conservative.1 =
        some (center_of 100 + 0.3 * max (1.8 * 1) (100 * 0.08)) ∧
      (zones_of 100 (some 1)).neutral.1 =
        some (center_of 100 - 0.2 * max (1.8 * 1) (100 * 0.08)) ∧
      (zones_of 100 (some 1)).aggressive.1 =
        some (center_of 100 - 0.8 * max (1.8 * 1) (100 * 0.08)) ∧
      optLt (zones_of 100 (some 1)).aggressive.1
          (zones_of 100 (some 1)).neutral.1 = true ∧
      optLt (zones_of 100 (some 1)).neutral.1
          (zones_of 100 (some 1)).conservative.1 = true :=
  zones_order_and_width 100 1 (by norm_num) (by norm_num)
